import Mathlib

/-!
Shallow embedding of the goposm `cache/diff.go` reference index:
the zigzag delta varint codec (`MarshalRefs` / `UnmarshalRefs`),
the sorted-insert buffering stage (`insertRefs` / `addToCache` / `dispatch`),
the flush-and-merge path (`loadAppendMarshal` / `writeRefs` / `writer`),
and the `DiffCache` lifecycle (`Open` / `Close` / `Exists` / `Remove`).

Bytes are modelled as `Nat` (values below 256), Go `int64` as `Int` with
explicit wrap-around modulo 2^64 where Go arithmetic can overflow, Go
`uint64` as `Nat` reduced modulo 2^64, and the levigo store as a function
from an id to an optional byte string.
-/

namespace GoposmCache

/-- Lower bound of the Go int64 range, -2^63. -/
def int64Min : Int := -9223372036854775808

/-- One past the upper bound of the Go int64 range, 2^63. -/
def int64Hi : Int := 9223372036854775808

/-- The Go int64 range predicate. -/
def isInt64 (x : Int) : Prop := int64Min ≤ x ∧ x < int64Hi

instance (x : Int) : Decidable (isInt64 x) :=
  inferInstanceAs (Decidable (_ ∧ _))

/-- Result of Go int64 arithmetic: wrap modulo 2^64 into [-2^63, 2^63). -/
def int64Wrap (x : Int) : Int :=
  (x + 9223372036854775808) % 18446744073709551616 - 9223372036854775808

/-- Go conversion `uint64(x)` of an int64 value: reduce modulo 2^64. -/
def toUint64 (x : Int) : Nat := (x % 18446744073709551616).toNat

/-- Go conversion `int64(u)` of a uint64 value. -/
def toInt64 (u : Nat) : Int :=
  if u % 18446744073709551616 < 9223372036854775808 then
    ((u % 18446744073709551616 : Nat) : Int)
  else ((u % 18446744073709551616 : Nat) : Int) - 18446744073709551616

/-- Go `binary.PutUvarint`: emit 7 bits per byte, least-significant group
first, continuation bit (0x80) on all but the final byte. -/
def putUvarint (u : Nat) : List Nat :=
  if u < 128 then [u]
  else (u % 128 + 128) :: putUvarint (u / 128)
termination_by u
decreasing_by exact Nat.div_lt_self (by omega) (by omega)

/-- Go `binary.PutVarint`: zigzag-map the signed value
(`ux := uint64(x) << 1; if x < 0 { ux = ^ux }`) and emit it as a uvarint. -/
def putVarint (x : Int) : List Nat :=
  let ux : Nat := toUint64 x * 2 % 18446744073709551616
  putUvarint (if x < 0 then 18446744073709551615 - ux else ux)

/-- Outcome of reading one varint from a byte string, mirroring the error
cases of Go `binary.ReadUvarint` as seen by `UnmarshalRefs`: clean end of
input (`io.EOF` before the first byte), a read error (truncation inside a
varint, reported as `io.ErrUnexpectedEOF`, or a 64-bit overflow), or a
value together with the unconsumed rest of the input. -/
inductive ReadResult (α : Type) where
  | eof : ReadResult α
  | errRead : ReadResult α
  | ok : α → List Nat → ReadResult α
deriving DecidableEq

/-- The loop of Go `binary.ReadUvarint`, iterating `i = 0 .. 9`
(`MaxVarintLen64 = 10` iterations); `fuel` is the number of iterations left
(`fuel = 10 - i`), `s` the shift, `x` the uint64 accumulator.  Exhausting
the iterations, or a final byte above 1 on the last iteration, is the
overflow error; end of input on iteration 0 is `io.EOF`, later it is
`io.ErrUnexpectedEOF` (a read error). -/
def readUvarintLoop : List Nat → Nat → Nat → Nat → ReadResult Nat
  | _, 0, _, _ => .errRead
  | [], fuel + 1, _, _ => if fuel = 9 then .eof else .errRead
  | b :: rest, fuel + 1, s, x =>
    if b < 128 then
      if fuel = 0 && 1 < b then .errRead
      else .ok ((x ||| (b <<< s)) % 18446744073709551616) rest
    else readUvarintLoop rest fuel (s + 7) ((x ||| ((b &&& 127) <<< s)) % 18446744073709551616)

/-- Go `binary.ReadUvarint` on a byte string. -/
def readUvarint (bs : List Nat) : ReadResult Nat := readUvarintLoop bs 10 0 0

/-- Go `binary.ReadVarint`: read a uvarint `ux` and undo the zigzag map
(`x := int64(ux >> 1); if ux&1 != 0 { x = ^x }`). -/
def readVarint (bs : List Nat) : ReadResult Int :=
  match readUvarint bs with
  | .eof => .eof
  | .errRead => .errRead
  | .ok ux rest =>
    let x : Int := toInt64 (ux >>> 1)
    .ok (if ux % 2 ≠ 0 then -x - 1 else x) rest

/-- Reading one uvarint consumes at least one byte whenever it succeeds. -/
theorem readUvarintLoop_ok_length :
    ∀ (bs : List Nat) (fuel s x u : Nat) (rest : List Nat),
      readUvarintLoop bs fuel s x = .ok u rest → rest.length < bs.length := by
  intro bs
  induction bs with
  | nil =>
    intro fuel s x u rest h
    match fuel with
    | 0 => simp [readUvarintLoop] at h
    | f + 1 =>
      simp only [readUvarintLoop] at h
      split at h <;> simp at h
  | cons b tl ih =>
    intro fuel s x u rest h
    match fuel with
    | 0 => simp [readUvarintLoop] at h
    | f + 1 =>
      simp only [readUvarintLoop] at h
      by_cases hb : b < 128
      · rw [if_pos hb] at h
        split at h
        · simp at h
        · rw [ReadResult.ok.injEq] at h
          simp [← h.2]
      · rw [if_neg hb] at h
        exact Nat.lt_trans (ih _ _ _ _ _ h) (by simp)

/-- Reading one varint consumes at least one byte whenever it succeeds. -/
theorem readVarint_ok_length {bs : List Nat} {d : Int} {rest : List Nat}
    (h : readVarint bs = .ok d rest) : rest.length < bs.length := by
  unfold readVarint at h
  split at h
  · cases h
  · cases h
  · next ux rest0 heq =>
    rw [ReadResult.ok.injEq] at h
    exact h.2 ▸ readUvarintLoop_ok_length _ _ _ _ _ _ heq

/-- The decode loop of Go `UnmarshalRefs`: read delta-encoded varints until
end of input, accumulating `ref = lastRef + ref` (int64 addition).  The
Bool records whether a read error was logged (`log.Println` followed by
`break` in the source); the caller of `UnmarshalRefs` never sees it. -/
def unmarshalLoop (bs : List Nat) (lastRef : Int) : List Int × Bool :=
  match h : readVarint bs with
  | .eof => ([], false)
  | .errRead => ([], true)
  | .ok d rest =>
    let ref := int64Wrap (lastRef + d)
    let next := unmarshalLoop rest ref
    (ref :: next.1, next.2)
termination_by bs.length
decreasing_by exact readVarint_ok_length h

/-- Go `UnmarshalRefs`: the decoded refs (the only thing returned to the
caller; decode errors are logged, not returned). -/
def UnmarshalRefs (bs : List Nat) : List Int := (unmarshalLoop bs 0).1

/-- Whether Go `UnmarshalRefs` hits the `log.Println` path (a malformed
trailing byte string) while decoding. -/
def unmarshalLogged (bs : List Nat) : Bool := (unmarshalLoop bs 0).2

/-- The encode loop of Go `MarshalRefs`: emit the varint of each successive
difference `ref - lastRef` (int64 subtraction).  The source writes into a
pre-sized byte buffer that it grows on demand and finally truncates to the
written length; the byte string produced is exactly this concatenation. -/
def marshalLoop : Int → List Int → List Nat
  | _, [] => []
  | lastRef, ref :: rest => putVarint (int64Wrap (ref - lastRef)) ++ marshalLoop ref rest

/-- Go `MarshalRefs`. -/
def MarshalRefs (refs : List Int) : List Nat := marshalLoop 0 refs

/-- With the low `s` bits already accumulated, or-ing in a shifted value is
addition. -/
theorem lor_shiftLeft_eq_add {x : Nat} (b s : Nat) (hx : x < 2 ^ s) :
    x ||| (b <<< s) = x + b * 2 ^ s := by
  rw [Nat.shiftLeft_eq, Nat.lor_comm, Nat.mul_comm b, ← Nat.mul_add_lt_is_or hx,
    Nat.add_comm]

/-- Reading back a `putUvarint` encoding: at iteration `9 - fuel` of the
ReadUvarint loop, with shift `s = 7 * (9 - fuel)` and accumulator `x < 2^s`,
a value `u` small enough for the remaining iterations decodes to
`x + u * 2^s` and consumes exactly the encoding. -/
theorem readUvarintLoop_putUvarint :
    ∀ (u fuel s x : Nat) (rest : List Nat),
      u < 2 ^ (7 * fuel + 1) → s = 7 * (9 - fuel) → fuel ≤ 9 → x < 2 ^ s →
      readUvarintLoop (putUvarint u ++ rest) (fuel + 1) s x = .ok (x + u * 2 ^ s) rest := by
  intro u
  induction u using Nat.strong_induction_on with
  | _ u ih =>
    intro fuel s x rest hu hs hfuel hx
    by_cases h128 : u < 128
    · unfold putUvarint
      rw [if_pos h128]
      simp only [List.cons_append, List.nil_append, readUvarintLoop]
      rw [if_pos h128]
      have hcond : (decide (fuel = 0) && decide (1 < u)) = false := by
        rcases Nat.eq_zero_or_pos fuel with hf | hf
        · subst hf
          have hu2 : u < 2 := by norm_num at hu; omega
          simp
          omega
        · simp [Nat.pos_iff_ne_zero.mp hf]
      rw [if_neg (by simp [hcond])]
      rw [lor_shiftLeft_eq_add u s hx]
      have e64 : 7 * fuel + 1 + s = 64 := by omega
      have hlt : x + u * 2 ^ s < 18446744073709551616 := by
        calc x + u * 2 ^ s < 2 ^ s + u * 2 ^ s := by omega
          _ = (u + 1) * 2 ^ s := by ring
          _ ≤ 2 ^ (7 * fuel + 1) * 2 ^ s := Nat.mul_le_mul_right _ (by omega)
          _ = 2 ^ (7 * fuel + 1 + s) := (pow_add 2 _ _).symm
          _ = 18446744073709551616 := by rw [e64]; norm_num
      rw [Nat.mod_eq_of_lt hlt]
      simp
    · have hfpos : fuel ≠ 0 := by
        intro hf
        subst hf
        have : u < 2 := by simpa using hu
        omega
      obtain ⟨f, rfl⟩ : ∃ f, fuel = f + 1 := ⟨fuel - 1, by omega⟩
      unfold putUvarint
      rw [if_neg h128]
      simp only [List.cons_append, readUvarintLoop]
      rw [if_neg (by omega)]
      have hand : (u % 128 + 128) &&& 127 = u % 128 := by
        have h := Nat.and_pow_two_sub_one_eq_mod (u % 128 + 128) 7
        norm_num at h
        omega
      rw [hand, lor_shiftLeft_eq_add (u % 128) s hx]
      have hs7 : s + 7 = 7 * (9 - f) := by omega
      have hx7 : x + u % 128 * 2 ^ s < 2 ^ (s + 7) := by
        have : x + u % 128 * 2 ^ s < 2 ^ s + 127 * 2 ^ s := by
          have : u % 128 ≤ 127 := by omega
          have := Nat.mul_le_mul_right (2 ^ s) this
          omega
        calc x + u % 128 * 2 ^ s < 2 ^ s + 127 * 2 ^ s := this
          _ = 2 ^ s * 2 ^ 7 := by ring
          _ = 2 ^ (s + 7) := (pow_add 2 _ _).symm
      have hmod : (x + u % 128 * 2 ^ s) % 18446744073709551616
          = x + u % 128 * 2 ^ s := by
        apply Nat.mod_eq_of_lt
        have hle : s + 7 ≤ 64 := by omega
        calc x + u % 128 * 2 ^ s < 2 ^ (s + 7) := hx7
          _ ≤ 2 ^ 64 := Nat.pow_le_pow_right (by omega) hle
          _ = 18446744073709551616 := by norm_num
      rw [hmod]
      have hudiv : u / 128 < 2 ^ (7 * f + 1) := by
        rw [Nat.div_lt_iff_lt_mul (by norm_num : (0:Nat) < 128)]
        calc u < 2 ^ (7 * (f + 1) + 1) := hu
          _ = 2 ^ (7 * f + 1) * 128 := by
            rw [show 7 * (f + 1) + 1 = 7 * f + 1 + 7 by omega, pow_add]
            norm_num
      have hrec := ih (u / 128) (Nat.div_lt_self (by omega) (by omega)) f (s + 7)
        (x + u % 128 * 2 ^ s) rest hudiv hs7 (by omega) hx7
      have hval : x + u % 128 * 2 ^ s + u / 128 * 2 ^ (s + 7) = x + u * 2 ^ s := by
        have h7 : (2:Nat) ^ (s + 7) = 2 ^ s * 128 := by rw [pow_add]; norm_num
        rw [h7]
        have hdm : u % 128 + 128 * (u / 128) = u := Nat.mod_add_div u 128
        calc x + u % 128 * 2 ^ s + u / 128 * (2 ^ s * 128)
            = x + (u % 128 + 128 * (u / 128)) * 2 ^ s := by ring
          _ = x + u * 2 ^ s := by rw [hdm]
      exact hrec.trans (by rw [hval])

/-- Round trip of a single uvarint with arbitrary trailing bytes. -/
theorem readUvarint_putUvarint (u : Nat) (rest : List Nat)
    (hu : u < 18446744073709551616) :
    readUvarint (putUvarint u ++ rest) = .ok u rest := by
  have h := readUvarintLoop_putUvarint u 9 0 0 rest
    (by norm_num; omega) (by norm_num) (by omega) (by norm_num)
  simpa [readUvarint] using h

/-- Unfolding `readVarint` over a known successful uvarint read. -/
theorem readVarint_eq_ok {bs : List Nat} {u : Nat} {rest : List Nat}
    (h : readUvarint bs = .ok u rest) :
    readVarint bs
      = .ok (if u % 2 ≠ 0 then -toInt64 (u >>> 1) - 1 else toInt64 (u >>> 1)) rest := by
  unfold readVarint
  rw [h]

/-- Round trip of a single signed varint with arbitrary trailing bytes. -/
theorem readVarint_putVarint (x : Int) (rest : List Nat) (hx : isInt64 x) :
    readVarint (putVarint x ++ rest) = .ok x rest := by
  have hlo : -9223372036854775808 ≤ x := hx.1
  have hhi : x < 9223372036854775808 := hx.2
  set n := toUint64 x with hndef
  have hn : ((n : Nat) : Int) = x % 18446744073709551616 := by
    rw [hndef]; unfold toUint64; omega
  have hdef : putVarint x = putUvarint (if x < 0 then
      18446744073709551615 - n * 2 % 18446744073709551616
      else n * 2 % 18446744073709551616) := rfl
  by_cases hneg : x < 0
  · have hnval : ((n : Nat) : Int) = x + 18446744073709551616 := by omega
    have hnlo : 9223372036854775808 ≤ n := by omega
    have hnhi : n < 18446744073709551616 := by omega
    have hU : (if x < 0 then 18446744073709551615 - n * 2 % 18446744073709551616
        else n * 2 % 18446744073709551616)
        = 18446744073709551615 - (n * 2 - 18446744073709551616) := by
      rw [if_pos hneg]
      omega
    rw [hdef, hU,
      readVarint_eq_ok (readUvarint_putUvarint _ rest (by omega))]
    have hq : (18446744073709551615 - (n * 2 - 18446744073709551616)) >>> 1
        = 18446744073709551615 - n := by
      rw [Nat.shiftRight_eq_div_pow, pow_one]
      omega
    have hodd : (18446744073709551615 - (n * 2 - 18446744073709551616)) % 2 ≠ 0 := by
      omega
    have hti : toInt64 (18446744073709551615 - n)
        = ((18446744073709551615 - n : Nat) : Int) := by
      unfold toInt64
      rw [Nat.mod_eq_of_lt (by omega), if_pos (by omega)]
    have hval : (if (18446744073709551615 - (n * 2 - 18446744073709551616)) % 2 ≠ 0 then
        -toInt64 ((18446744073709551615 - (n * 2 - 18446744073709551616)) >>> 1) - 1
        else toInt64 ((18446744073709551615 - (n * 2 - 18446744073709551616)) >>> 1)) = x := by
      rw [if_pos hodd, hq, hti]
      omega
    rw [hval]
  · have hnval : ((n : Nat) : Int) = x := by omega
    have hnhi : n < 9223372036854775808 := by omega
    have hU : (if x < 0 then 18446744073709551615 - n * 2 % 18446744073709551616
        else n * 2 % 18446744073709551616) = n * 2 := by
      rw [if_neg hneg]
      omega
    rw [hdef, hU,
      readVarint_eq_ok (readUvarint_putUvarint _ rest (by omega))]
    have hq : (n * 2) >>> 1 = n := by
      rw [Nat.shiftRight_eq_div_pow, pow_one]
      omega
    have heven : ¬ (n * 2) % 2 ≠ 0 := by omega
    have hti : toInt64 n = x := by
      unfold toInt64
      rw [Nat.mod_eq_of_lt (by omega), if_pos (by omega)]
      omega
    have hval : (if (n * 2) % 2 ≠ 0 then -toInt64 ((n * 2) >>> 1) - 1
        else toInt64 ((n * 2) >>> 1)) = x := by
      rw [if_neg heven, hq, hti]
    rw [hval]

/-- Wrapping always lands in the int64 range. -/
theorem int64Wrap_isInt64 (x : Int) : isInt64 (int64Wrap x) := by
  unfold isInt64 int64Wrap int64Min int64Hi
  constructor <;> omega

/-- The wrapped delta reconstructs the original value when the target value
is in the int64 range: decode `lastRef + (ref - lastRef)` cancels modulo
2^64. -/
theorem int64Wrap_delta (last r : Int) (hr : isInt64 r) :
    int64Wrap (last + int64Wrap (r - last)) = r := by
  have h1 : -9223372036854775808 ≤ r := hr.1
  have h2 : r < 9223372036854775808 := hr.2
  unfold int64Wrap
  omega

/-- The decode loop on an encountered end of input. -/
theorem unmarshalLoop_eof {bs : List Nat} (last : Int) (h : readVarint bs = .eof) :
    unmarshalLoop bs last = ([], false) := by
  unfold unmarshalLoop
  split
  · rfl
  · next heq => rw [h] at heq; cases heq
  · next d rest heq => rw [h] at heq; cases heq

/-- The decode loop on a read error: stop and record a logged error. -/
theorem unmarshalLoop_errRead {bs : List Nat} (last : Int)
    (h : readVarint bs = .errRead) : unmarshalLoop bs last = ([], true) := by
  unfold unmarshalLoop
  split
  · next heq => rw [h] at heq; cases heq
  · rfl
  · next d rest heq => rw [h] at heq; cases heq

/-- The decode loop on a successful varint read. -/
theorem unmarshalLoop_step {bs : List Nat} {d : Int} {rest : List Nat} (last : Int)
    (h : readVarint bs = .ok d rest) :
    unmarshalLoop bs last
      = (int64Wrap (last + d) :: (unmarshalLoop rest (int64Wrap (last + d))).1,
         (unmarshalLoop rest (int64Wrap (last + d))).2) := by
  rw [unmarshalLoop.eq_def]
  split
  · next heq => rw [h] at heq; cases heq
  · next heq => rw [h] at heq; cases heq
  · next d0 rest0 heq =>
    rw [h] at heq
    cases heq
    rfl

/-- Reading a varint from the empty byte string is a clean end of input. -/
theorem readVarint_nil : readVarint [] = .eof := rfl

/-- A single byte with the continuation bit set is a truncated varint:
reading it is an error, not an end of input. -/
theorem readVarint_cont : readVarint [128] = .errRead := rfl

/-- Decoding the concatenation of an encoding and arbitrary trailing bytes:
the original sequence comes back and decoding continues on the trailing
bytes with the last decoded value as the running reference. -/
theorem unmarshalLoop_marshalLoop (s : List Int) :
    ∀ (last : Int) (tail : List Nat), (∀ r ∈ s, isInt64 r) →
      unmarshalLoop (marshalLoop last s ++ tail) last
        = (s ++ (unmarshalLoop tail (s.getLastD last)).1,
           (unmarshalLoop tail (s.getLastD last)).2) := by
  induction s with
  | nil =>
    intro last tail h
    simp [marshalLoop]
  | cons r rs ih =>
    intro last tail h
    have hr : isInt64 r := h r (by simp)
    have hstep := unmarshalLoop_step last
      (readVarint_putVarint (int64Wrap (r - last)) (marshalLoop r rs ++ tail)
        (int64Wrap_isInt64 _))
    rw [marshalLoop, List.append_assoc, hstep, int64Wrap_delta last r hr]
    rw [ih r tail (fun a ha => h a (by simp [ha]))]
    rw [List.getLastD_cons]
    simp

/-- Round trip of the full codec for any int64 sequence (the ascending
hypothesis is not needed: int64 wrap-around cancels between encoder and
decoder). -/
theorem UnmarshalRefs_MarshalRefs (s : List Int) (h : ∀ r ∈ s, isInt64 r) :
    UnmarshalRefs (MarshalRefs s) = s := by
  have hm := unmarshalLoop_marshalLoop s 0 [] h
  rw [List.append_nil, unmarshalLoop_eof _ readVarint_nil] at hm
  unfold UnmarshalRefs MarshalRefs
  rw [hm]
  simp

/-- Go `sort.Sort(byInt64(refs))`: an ascending comparison sort, modelled by
its specification — the sorted permutation of the input, which is unique. -/
def sortRefs (refs : List Int) : List Int := List.insertionSort (· ≤ ·) refs

theorem sortRefs_perm (l : List Int) : List.Perm (sortRefs l) l :=
  List.perm_insertionSort _ l

theorem sortRefs_sorted (l : List Int) : List.Sorted (· ≤ ·) (sortRefs l) :=
  List.sorted_insertionSort _ l

theorem sortRefs_congr_perm {l1 l2 : List Int} (h : List.Perm l1 l2) :
    sortRefs l1 = sortRefs l2 :=
  List.eq_of_perm_of_sorted ((sortRefs_perm l1).trans (h.trans (sortRefs_perm l2).symm))
    (sortRefs_sorted _) (sortRefs_sorted _)

theorem sortRefs_of_sorted {l : List Int} (h : List.Sorted (· ≤ ·) l) :
    sortRefs l = l :=
  List.Sorted.insertionSort_eq h

/-- Go `insertRefs`: insert `ref` at the smallest index whose element is
`>= ref` (the contract of the `sort.Search` binary search on the pending
lists, which are always sorted), shifting the tail up; append when every
element is smaller. -/
def insertRefs : List Int → Int → List Int
  | [], ref => [ref]
  | r :: rest, ref => if r ≥ ref then ref :: r :: rest else r :: insertRefs rest ref

theorem insertRefs_eq_orderedInsert (refs : List Int) (ref : Int) :
    insertRefs refs ref = List.orderedInsert (· ≤ ·) ref refs := by
  induction refs with
  | nil => rfl
  | cons r rest ih =>
    rw [insertRefs, List.orderedInsert]
    by_cases hc : ref ≤ r
    · rw [if_pos hc, if_pos hc]
    · rw [if_neg hc, if_neg hc, ih]

theorem insertRefs_perm (refs : List Int) (ref : Int) :
    List.Perm (insertRefs refs ref) (ref :: refs) := by
  rw [insertRefs_eq_orderedInsert]
  exact List.perm_orderedInsert _ _ _

theorem insertRefs_sorted {refs : List Int} (h : List.Sorted (· ≤ ·) refs)
    (ref : Int) : List.Sorted (· ≤ ·) (insertRefs refs ref) := by
  rw [insertRefs_eq_orderedInsert]
  exact List.Sorted.orderedInsert _ _ h

/-- The levigo store as seen through the per-id keys: the optionally present
byte string for each id (`nil` from `db.Get` means absent).  `idToKeyBuf` is
an injective fixed-width big-endian encoding, so indexing by the id itself
is faithful. -/
def Store := Int → Option (List Nat)

/-- A store holding no record at all. -/
def emptyStore : Store := fun _ => none

/-- Go `loadAppendMarshal`: read the existing persisted bytes for the key
(`nil` meaning no existing refs), decode them, append the pending refs and
re-sort ascending (no deduplication), then re-encode.  `UnmarshalRefs`
always returns a non-nil slice, so the `refs == nil` branch is taken
exactly when `data == nil`, and in that branch `newRefs` is marshalled
as-is, without the sort. -/
def loadAppendMarshal (stored : Option (List Nat)) (newRefs : List Int) : List Nat :=
  match stored with
  | none => MarshalRefs newRefs
  | some data => MarshalRefs (sortRefs (UnmarshalRefs data ++ newRefs))

theorem loadAppendMarshal_none (newRefs : List Int) :
    loadAppendMarshal none newRefs = MarshalRefs newRefs := rfl

theorem loadAppendMarshal_some (data : List Nat) (newRefs : List Int) :
    loadAppendMarshal (some data) newRefs
      = MarshalRefs (sortRefs (UnmarshalRefs data ++ newRefs)) := rfl

/-- Go `RefIndex.Get`: a synchronous point read of the persisted record
only; absent data decodes to the empty list. -/
def Get (store : Store) (id : Int) : List Int :=
  match store id with
  | none => []
  | some data => UnmarshalRefs data

theorem Get_eq_of_none {store : Store} {id : Int} (h : store id = none) :
    Get store id = [] := by
  unfold Get
  rw [h]

theorem Get_eq_of_some {store : Store} {id : Int} {data : List Nat}
    (h : store id = some data) : Get store id = UnmarshalRefs data := by
  unfold Get
  rw [h]

/-- The per-id effect of one flush: the key of `id` is overwritten with the
merge result of `loadAppendMarshal`; other keys are untouched. -/
def flushBatch (store : Store) (id : Int) (refs : List Int) : Store :=
  fun k => if k = id then some (loadAppendMarshal (store k) refs) else store k

/-- Flushing a sequence of pending batches for one id, oldest first. -/
def flushSeq (store : Store) (id : Int) (batches : List (List Int)) : Store :=
  batches.foldl (fun s b => flushBatch s id b) store

/-- The merge step always produces the encoding of the sorted concatenation
of the old decoded record and the new batch. -/
theorem loadAppendMarshal_spec (stored : Option (List Nat)) (v newRefs : List Int)
    (hvr : ∀ r ∈ v, isInt64 r) (hnew : List.Sorted (· ≤ ·) newRefs)
    (hcase : (stored = none ∧ v = []) ∨ stored = some (MarshalRefs v)) :
    loadAppendMarshal stored newRefs = MarshalRefs (sortRefs (v ++ newRefs)) := by
  rcases hcase with ⟨hs, hv0⟩ | hs
  · subst hs; subst hv0
    rw [loadAppendMarshal_none, List.nil_append, sortRefs_of_sorted hnew]
  · subst hs
    rw [loadAppendMarshal_some, UnmarshalRefs_MarshalRefs v hvr]

/-- After flushing any sequence of sorted in-range batches for `id` on top
of a store whose record for `id` is either absent or the encoding of a
sorted in-range list `v`, the persisted record decodes to the ascending
sort of `v` and all batches together. -/
theorem flushSeq_get (batches : List (List Int)) :
    ∀ (store : Store) (v : List Int) (id : Int),
      ((store id = none ∧ v = []) ∨ store id = some (MarshalRefs v)) →
      List.Sorted (· ≤ ·) v → (∀ r ∈ v, isInt64 r) →
      (∀ b ∈ batches, List.Sorted (· ≤ ·) b ∧ ∀ r ∈ b, isInt64 r) →
      Get (flushSeq store id batches) id = sortRefs (v ++ batches.flatten) := by
  induction batches with
  | nil =>
    intro store v id hcase hv hvr _
    rcases hcase with ⟨hs, hv0⟩ | hs
    · subst hv0
      simp [flushSeq, Get_eq_of_none hs, sortRefs]
    · simp only [flushSeq, List.foldl_nil, List.flatten_nil, List.append_nil]
      rw [Get_eq_of_some hs, UnmarshalRefs_MarshalRefs v hvr, sortRefs_of_sorted hv]
  | cons b bs ih =>
    intro store v id hcase hv hvr hb
    have hbs : List.Sorted (· ≤ ·) b := (hb b (by simp)).1
    have hbr : ∀ r ∈ b, isInt64 r := (hb b (by simp)).2
    have hstep : (flushBatch store id b) id = some (MarshalRefs (sortRefs (v ++ b))) := by
      unfold flushBatch
      rw [if_pos rfl, loadAppendMarshal_spec (store id) v b hvr hbs hcase]
    have hrec := ih (flushBatch store id b) (sortRefs (v ++ b)) id (Or.inr hstep)
      (sortRefs_sorted _)
      (fun r hr => by
        have hm : r ∈ v ++ b := (sortRefs_perm (v ++ b)).mem_iff.mp hr
        rcases List.mem_append.mp hm with h | h
        · exact hvr r h
        · exact hbr r h)
      (fun c hc => hb c (by simp [hc]))
    have hfold : flushSeq store id (b :: bs) = flushSeq (flushBatch store id b) id bs := by
      unfold flushSeq
      rw [List.foldl_cons]
    rw [hfold, hrec]
    apply sortRefs_congr_perm
    have hp : List.Perm (sortRefs (v ++ b) ++ bs.flatten) ((v ++ b) ++ bs.flatten) :=
      (sortRefs_perm (v ++ b)).append_right _
    have he : (v ++ b) ++ bs.flatten = v ++ (b :: bs).flatten := by simp
    exact he ▸ hp

/-- One accepted `(id, ref)` entry from the `add` channel (Go `idRef`). -/
structure idRef where
  id : Int
  ref : Int
deriving DecidableEq

/-- Go `cacheSize = 64 * 1024`, the distinct-id flush threshold. -/
def cacheSize : Nat := 64 * 1024

/-- The in-memory accumulation buffer `map[int64][]int64`, modelled as an
association list (Go map keys are unique; uniqueness is maintained by
`bufInsert` and proved where needed). -/
def BufMap := List (Int × List Int)

/-- Map lookup `buffer[id]`. -/
def bufFind : BufMap → Int → Option (List Int)
  | [], _ => none
  | (k, v) :: rest, id => if k = id then some v else bufFind rest id

/-- Map update `buffer[id] = refs`: replace the entry in place or append a
new one. -/
def bufInsert : BufMap → Int → List Int → BufMap
  | [], id, refs => [(id, refs)]
  | (k, v) :: rest, id, refs =>
    if k = id then (id, refs) :: rest else (k, v) :: bufInsert rest id refs

/-- Map deletion `delete(buffer, id)`. -/
def bufErase : BufMap → Int → BufMap
  | [], _ => []
  | (k, v) :: rest, id => if k = id then rest else (k, v) :: bufErase rest id

/-- The pending list for `id` in a buffer; a missing entry reads as the
empty list. -/
def bufRefs (b : BufMap) (id : Int) : List Int := (bufFind b id).getD []

/-- Go `addToCache`: look up the pending list for `id` (a missing entry
gives a fresh empty slice), sorted-insert `ref`, store the list back. -/
def addToCache (buffer : BufMap) (id ref : Int) : BufMap :=
  bufInsert buffer id (insertRefs (bufRefs buffer id) ref)

/-- State of the buffering stage `dispatch`: the live buffer and the
buffers already handed to the write channel, in hand-off order. -/
structure DispatchState where
  buffer : BufMap
  flushed : List BufMap

/-- One iteration of Go `dispatch`: insert the accepted entry into the live
buffer; when the distinct-id count reaches `cacheSize` the buffer goes to
the write channel and buffering continues with a fresh buffer (a buffer
recycled from `refCaches` is empty — see `clearKeys_eq_nil` — so the fresh
buffer is the empty map in either branch of the `select`). -/
def dispatchStep (st : DispatchState) (e : idRef) : DispatchState :=
  let b := addToCache st.buffer e.id e.ref
  if cacheSize ≤ b.length then
    { buffer := [], flushed := st.flushed ++ [b] }
  else { buffer := b, flushed := st.flushed }

/-- The tail of Go `dispatch` after the `add` channel is closed by `Close`:
a non-empty remainder buffer is handed to the write channel as well. -/
def closeFlush (st : DispatchState) : List BufMap :=
  if 0 < st.buffer.length then st.flushed ++ [st.buffer] else st.flushed

/-- The store effect of one `writeRefs` call: every id of the flushed
buffer is merged via `loadAppendMarshal` and all pairs go into one atomic
batch write.  Distinct ids touch distinct keys, so the batch equals this
per-id update. -/
def writeRefsStore (store : Store) (b : BufMap) : Store :=
  fun k =>
    match bufFind b k with
    | some refs => some (loadAppendMarshal (store k) refs)
    | none => store k

/-- The clearing loop at the end of Go `writeRefs`, before the buffer is
offered to the `refCaches` recycle pool:
`for k := range idRefs { delete(idRefs, k) }`. -/
def clearKeys (b : BufMap) : BufMap :=
  (b.map Prod.fst).foldl bufErase b

/-- The whole lifecycle of one index under the sequential pipeline order:
entries accepted by `add` are consumed in order by `dispatch`; `Close`
closes the channels and waits, so the remainder buffer is flushed and the
writer drains every handed-off buffer into the store before the store
handle is closed. -/
def runClose (entries : List idRef) : Store :=
  (closeFlush (entries.foldl dispatchStep ⟨[], []⟩)).foldl writeRefsStore emptyStore

/-- The refs accepted for a given id, in acceptance order. -/
def refsOf (entries : List idRef) (id : Int) : List Int :=
  entries.filterMap (fun e => if e.id = id then some e.ref else none)

/-- All pending refs for `id` across a list of buffers. -/
def bufsRefs (bufs : List BufMap) (id : Int) : List Int :=
  (bufs.map (fun b => bufRefs b id)).flatten

/-- Deleting every key of a buffer empties it: a buffer that reaches the
recycle pool holds no entry from the flush that produced it. -/
theorem clearKeys_eq_nil : ∀ b : BufMap, clearKeys b = [] := by
  intro b
  induction b with
  | nil => rfl
  | cons kv rest ih =>
    obtain ⟨k, v⟩ := kv
    show List.foldl bufErase ((k, v) :: rest) (((k, v) :: rest).map Prod.fst) = []
    rw [List.map_cons, List.foldl_cons]
    show List.foldl bufErase (bufErase ((k, v) :: rest) k) (rest.map Prod.fst) = []
    rw [bufErase, if_pos rfl]
    exact ih

theorem bufFind_bufInsert_same (b : BufMap) (id : Int) (refs : List Int) :
    bufFind (bufInsert b id refs) id = some refs := by
  induction b with
  | nil => simp [bufInsert, bufFind]
  | cons kv rest ih =>
    obtain ⟨k, v⟩ := kv
    rw [bufInsert]
    by_cases hk : k = id
    · rw [if_pos hk, bufFind, if_pos rfl]
    · rw [if_neg hk, bufFind, if_neg hk, ih]

theorem bufFind_bufInsert_other (b : BufMap) {id k0 : Int} (hne : k0 ≠ id)
    (refs : List Int) : bufFind (bufInsert b id refs) k0 = bufFind b k0 := by
  induction b with
  | nil => simp [bufInsert, bufFind]; omega
  | cons kv rest ih =>
    obtain ⟨k, v⟩ := kv
    rw [bufInsert]
    by_cases hk : k = id
    · rw [if_pos hk, bufFind, bufFind, if_neg (by omega), if_neg (by omega)]
    · rw [if_neg hk, bufFind, bufFind]
      by_cases hk0 : k = k0
      · rw [if_pos hk0, if_pos hk0]
      · rw [if_neg hk0, if_neg hk0, ih]

theorem bufRefs_addToCache_same (b : BufMap) (id ref : Int) :
    bufRefs (addToCache b id ref) id = insertRefs (bufRefs b id) ref := by
  unfold addToCache bufRefs
  rw [bufFind_bufInsert_same]
  rfl

theorem bufRefs_addToCache_other (b : BufMap) {id k0 : Int} (hne : k0 ≠ id)
    (ref : Int) : bufRefs (addToCache b id ref) k0 = bufRefs b k0 := by
  unfold addToCache bufRefs
  rw [bufFind_bufInsert_other _ hne]

theorem bufsRefs_append_single (bufs : List BufMap) (b : BufMap) (id : Int) :
    bufsRefs (bufs ++ [b]) id = bufsRefs bufs id ++ bufRefs b id := by
  simp [bufsRefs]

theorem refsOf_cons (e : idRef) (es : List idRef) (id : Int) :
    refsOf (e :: es) id
      = if e.id = id then e.ref :: refsOf es id else refsOf es id := by
  by_cases h : e.id = id <;> simp [refsOf, List.filterMap_cons, h]

/-- Invariant of the buffering stage at a fixed id: the refs for the id in
the handed-off buffers plus the live pending list form the multiset `m`,
the live pending list is sorted, and so is each handed-off per-id list. -/
def DispatchInv (st : DispatchState) (id : Int) (m : List Int) : Prop :=
  List.Perm (bufsRefs st.flushed id ++ bufRefs st.buffer id) m
  ∧ List.Sorted (· ≤ ·) (bufRefs st.buffer id)
  ∧ ∀ b ∈ st.flushed, List.Sorted (· ≤ ·) (bufRefs b id)

theorem dispatchStep_inv {st : DispatchState} {id : Int} {m : List Int}
    (h : DispatchInv st id m) (e : idRef) :
    DispatchInv (dispatchStep st e) id (if e.id = id then m ++ [e.ref] else m) := by
  obtain ⟨hperm, hsort, hfl⟩ := h
  have hb : List.Perm
      (bufsRefs st.flushed id ++ bufRefs (addToCache st.buffer e.id e.ref) id)
      (if e.id = id then m ++ [e.ref] else m)
      ∧ List.Sorted (· ≤ ·) (bufRefs (addToCache st.buffer e.id e.ref) id) := by
    by_cases heq : e.id = id
    · subst heq
      rw [bufRefs_addToCache_same, if_pos rfl]
      refine ⟨?_, insertRefs_sorted hsort _⟩
      have h1 : List.Perm (insertRefs (bufRefs st.buffer e.id) e.ref)
          (bufRefs st.buffer e.id ++ [e.ref]) :=
        (insertRefs_perm _ _).trans (List.perm_append_singleton _ _).symm
      refine (List.Perm.append_left _ h1).trans ?_
      rw [← List.append_assoc]
      exact hperm.append_right [e.ref]
    · rw [bufRefs_addToCache_other _ (Ne.symm heq), if_neg heq]
      exact ⟨hperm, hsort⟩
  simp only [dispatchStep]
  by_cases hlen : cacheSize ≤ (addToCache st.buffer e.id e.ref).length
  · rw [if_pos hlen]
    refine ⟨?_, by simp [bufRefs, bufFind], ?_⟩
    · rw [bufsRefs_append_single]
      simpa [bufRefs, bufFind] using hb.1
    · intro bb hbb
      rcases List.mem_append.mp hbb with hbb | hbb
      · exact hfl bb hbb
      · simp at hbb
        subst hbb
        exact hb.2
  · rw [if_neg hlen]
    exact ⟨hb.1, hb.2, hfl⟩

theorem dispatch_inv (es : List idRef) :
    ∀ (st : DispatchState) (id : Int) (m : List Int), DispatchInv st id m →
      DispatchInv (es.foldl dispatchStep st) id (m ++ refsOf es id) := by
  induction es with
  | nil =>
    intro st id m h
    simpa [refsOf] using h
  | cons e es ih =>
    intro st id m h
    rw [List.foldl_cons]
    have hrest := ih (dispatchStep st e) id _ (dispatchStep_inv h e)
    rw [refsOf_cons]
    by_cases heq : e.id = id
    · rw [if_pos heq]
      rw [if_pos heq, List.append_assoc] at hrest
      simpa using hrest
    · rw [if_neg heq]
      rw [if_neg heq] at hrest
      exact hrest

/-- After the close path drains the dispatcher, the handed-off buffers
carry, per id, a permutation of all accepted refs, each per-id list
sorted. -/
theorem closeFlush_spec (entries : List idRef) (id : Int) :
    List.Perm (bufsRefs (closeFlush (entries.foldl dispatchStep ⟨[], []⟩)) id)
      (refsOf entries id)
    ∧ ∀ b ∈ closeFlush (entries.foldl dispatchStep ⟨[], []⟩),
        List.Sorted (· ≤ ·) (bufRefs b id) := by
  have h0 : DispatchInv ⟨[], []⟩ id [] := by
    refine ⟨?_, ?_, ?_⟩
    · simp [bufsRefs, bufRefs, bufFind]
    · simp [bufRefs, bufFind]
    · simp
  have h := dispatch_inv entries ⟨[], []⟩ id [] h0
  rw [List.nil_append] at h
  unfold closeFlush
  split
  · refine ⟨?_, ?_⟩
    · rw [bufsRefs_append_single]
      exact h.1
    · intro b hb
      rcases List.mem_append.mp hb with hb | hb
      · exact h.2.2 b hb
      · simp at hb
        subst hb
        exact h.2.1
  · next hempty =>
    have hnil : (entries.foldl dispatchStep ⟨[], []⟩).buffer = [] := by
      rcases List.eq_nil_or_concat (entries.foldl dispatchStep ⟨[], []⟩).buffer with hc | ⟨l, a, hc⟩
      · exact hc
      · exfalso
        apply hempty
        rw [hc]
        simp
    refine ⟨?_, fun b hb => h.2.2 b hb⟩
    have := h.1
    rw [hnil] at this
    simpa [bufRefs, bufFind] using this

theorem bufsRefs_cons (b : BufMap) (bs : List BufMap) (id : Int) :
    bufsRefs (b :: bs) id = bufRefs b id ++ bufsRefs bs id := by
  simp [bufsRefs]

/-- Draining a list of buffers into the store: per id, the final record
decodes to the ascending sort of the previous record and every buffer's
pending list for that id. -/
theorem writeRefsStore_fold_get (bufs : List BufMap) :
    ∀ (store : Store) (v : List Int) (id : Int),
      ((store id = none ∧ v = []) ∨ store id = some (MarshalRefs v)) →
      List.Sorted (· ≤ ·) v → (∀ r ∈ v, isInt64 r) →
      (∀ b ∈ bufs, List.Sorted (· ≤ ·) (bufRefs b id) ∧ ∀ r ∈ bufRefs b id, isInt64 r) →
      Get (bufs.foldl writeRefsStore store) id = sortRefs (v ++ bufsRefs bufs id) := by
  induction bufs with
  | nil =>
    intro store v id hcase hv hvr _
    rcases hcase with ⟨hs, hv0⟩ | hs
    · subst hv0
      simp [Get_eq_of_none hs, bufsRefs, sortRefs]
    · simp only [List.foldl_nil]
      rw [Get_eq_of_some hs, UnmarshalRefs_MarshalRefs v hvr]
      simp [bufsRefs, sortRefs_of_sorted hv]
  | cons b bs ih =>
    intro store v id hcase hv hvr hb
    have hbsort := (hb b (by simp)).1
    have hbrange := (hb b (by simp)).2
    rw [List.foldl_cons]
    rcases hfind : bufFind b id with _ | refs
    · have hbrefs : bufRefs b id = [] := by
        unfold bufRefs
        rw [hfind]
        rfl
      have hsame : (writeRefsStore store b) id = store id := by
        unfold writeRefsStore
        rw [hfind]
      have hrec := ih (writeRefsStore store b) v id
        (by rw [hsame]; exact hcase) hv hvr (fun c hc => hb c (by simp [hc]))
      rw [hrec, bufsRefs_cons, hbrefs, List.nil_append]
    · have hbrefs : bufRefs b id = refs := by
        unfold bufRefs
        rw [hfind]
        rfl
      rw [hbrefs] at hbsort hbrange
      have hstep : (writeRefsStore store b) id
          = some (MarshalRefs (sortRefs (v ++ refs))) := by
        unfold writeRefsStore
        rw [hfind]
        show some (loadAppendMarshal (store id) refs) = _
        rw [loadAppendMarshal_spec (store id) v refs hvr hbsort hcase]
      have hrec := ih (writeRefsStore store b) (sortRefs (v ++ refs)) id (Or.inr hstep)
        (sortRefs_sorted _)
        (fun r hr => by
          have hm : r ∈ v ++ refs := (sortRefs_perm (v ++ refs)).mem_iff.mp hr
          rcases List.mem_append.mp hm with hm | hm
          · exact hvr r hm
          · exact hbrange r hm)
        (fun c hc => hb c (by simp [hc]))
      rw [hrec]
      apply sortRefs_congr_perm
      have hp : List.Perm (sortRefs (v ++ refs) ++ bufsRefs bs id)
          ((v ++ refs) ++ bufsRefs bs id) :=
        (sortRefs_perm (v ++ refs)).append_right _
      have he : (v ++ refs) ++ bufsRefs bs id = v ++ bufsRefs (b :: bs) id := by
        rw [bufsRefs_cons, hbrefs, List.append_assoc]
      exact he ▸ hp

/-- A ref read from `refsOf` comes from an accepted entry. -/
theorem refsOf_mem {entries : List idRef} {id r : Int}
    (h : r ∈ refsOf entries id) : ⟨id, r⟩ ∈ entries := by
  unfold refsOf at h
  rcases List.mem_filterMap.mp h with ⟨e, he, heq⟩
  by_cases hid : e.id = id
  · rw [if_pos hid] at heq
    have hre : e.ref = r := by injection heq
    have he2 : e = ⟨id, r⟩ := by
      cases e
      simp_all
    exact he2 ▸ he
  · rw [if_neg hid] at heq
    cases heq

/-- Full functional correctness of the close path: after `Close`, `Get`
returns the ascending sort of every accepted ref for the id. -/
theorem runClose_get (entries : List idRef) (id : Int)
    (hr : ∀ e ∈ entries, isInt64 e.ref) :
    Get (runClose entries) id = sortRefs (refsOf entries id) := by
  obtain ⟨hperm, hsort⟩ := closeFlush_spec entries id
  have hranged : ∀ b ∈ closeFlush (entries.foldl dispatchStep ⟨[], []⟩),
      ∀ r ∈ bufRefs b id, isInt64 r := by
    intro b hb r hrb
    have hmem : r ∈ bufsRefs (closeFlush (entries.foldl dispatchStep ⟨[], []⟩)) id := by
      unfold bufsRefs
      exact List.mem_flatten.mpr ⟨bufRefs b id, List.mem_map_of_mem _ hb, hrb⟩
    have : r ∈ refsOf entries id := hperm.mem_iff.mp hmem
    exact hr ⟨id, r⟩ (refsOf_mem this)
  have hmain := writeRefsStore_fold_get
    (closeFlush (entries.foldl dispatchStep ⟨[], []⟩)) emptyStore [] id
    (Or.inl ⟨rfl, rfl⟩) (by simp) (by simp)
    (fun b hb => ⟨hsort b hb, hranged b hb⟩)
  rw [List.nil_append] at hmain
  unfold runClose
  rw [hmain]
  exact sortRefs_congr_perm hperm

/-- The flush stage `writer`: drain the write channel in hand-off order;
`writeRefs` returns the result of its final atomic batch write, which the
writer merely logs (`log.Println`) before taking the next buffer.  Each
element pairs a handed-off buffer with the outcome of its batch write
(`true` = applied); a failed batch write is atomic, leaving the store
unchanged.  Returns the final store and the number of logged write
errors. -/
def writerRun : Store → List (BufMap × Bool) → Store × Nat
  | store, [] => (store, 0)
  | store, (b, ok) :: rest =>
    let store1 := if ok then writeRefsStore store b else store
    let next := writerRun store1 rest
    (next.1, (if ok then 0 else 1) + next.2)

/-- The keys of an accumulation buffer. -/
def bufKeys (b : BufMap) : List Int := b.map Prod.fst

theorem bufInsert_length (b : BufMap) (id : Int) (refs : List Int) :
    (bufInsert b id refs).length
      = if (bufFind b id).isSome then b.length else b.length + 1 := by
  induction b with
  | nil => simp [bufInsert, bufFind]
  | cons kv rest ih =>
    obtain ⟨k, v⟩ := kv
    rw [bufInsert, bufFind]
    by_cases hk : k = id
    · rw [if_pos hk, if_pos hk]
      simp
    · rw [if_neg hk, if_neg hk]
      simp only [List.length_cons, ih]
      by_cases hf : (bufFind rest id).isSome <;> simp [hf]

theorem mem_bufKeys_bufInsert {x : Int} (b : BufMap) (id : Int) (refs : List Int) :
    x ∈ bufKeys (bufInsert b id refs) ↔ x = id ∨ x ∈ bufKeys b := by
  induction b with
  | nil => simp [bufInsert, bufKeys]
  | cons kv rest ih =>
    obtain ⟨k, v⟩ := kv
    rw [bufInsert]
    by_cases hk : k = id
    · subst hk
      rw [if_pos rfl]
      simp [bufKeys]
    · rw [if_neg hk]
      simp only [bufKeys, List.map_cons, List.mem_cons] at ih ⊢
      rw [ih]
      tauto

theorem bufInsert_nodup {b : BufMap} (hnd : (bufKeys b).Nodup) (id : Int)
    (refs : List Int) : (bufKeys (bufInsert b id refs)).Nodup := by
  induction b with
  | nil => simp [bufInsert, bufKeys]
  | cons kv rest ih =>
    obtain ⟨k, v⟩ := kv
    rw [bufInsert]
    simp only [bufKeys, List.map_cons, List.nodup_cons] at hnd
    by_cases hk : k = id
    · subst hk
      rw [if_pos rfl]
      simp only [bufKeys, List.map_cons, List.nodup_cons]
      exact hnd
    · rw [if_neg hk]
      simp only [bufKeys, List.map_cons, List.nodup_cons]
      refine ⟨?_, ih hnd.2⟩
      intro hmem
      rcases (mem_bufKeys_bufInsert rest id refs).mp hmem with h | h
      · exact hk h
      · exact hnd.1 h

/-- The structural invariant of the buffering stage: fewer than `cacheSize`
distinct ids live in the buffer between entries, every handed-off buffer
holds exactly `cacheSize` ids, and buffer keys are pairwise distinct. -/
def BufferInv (st : DispatchState) : Prop :=
  st.buffer.length < cacheSize
  ∧ (∀ b ∈ st.flushed, b.length = cacheSize)
  ∧ (bufKeys st.buffer).Nodup

theorem dispatchStep_bufferInv {st : DispatchState} (h : BufferInv st) (e : idRef) :
    BufferInv (dispatchStep st e) := by
  obtain ⟨hlen, hfl, hnd⟩ := h
  simp only [dispatchStep]
  set b2 := addToCache st.buffer e.id e.ref with hb2
  have hlen2 : b2.length ≤ st.buffer.length + 1 := by
    rw [hb2]
    unfold addToCache
    rw [bufInsert_length]
    split <;> omega
  have hnd2 : (bufKeys b2).Nodup := bufInsert_nodup hnd _ _
  by_cases hth : cacheSize ≤ b2.length
  · rw [if_pos hth]
    refine ⟨by norm_num [cacheSize], ?_, by simp [bufKeys]⟩
    intro b hb
    rcases List.mem_append.mp hb with hb | hb
    · exact hfl b hb
    · simp at hb
      subst hb
      show List.length b2 = cacheSize
      have hth2 : cacheSize ≤ List.length b2 := hth
      exact Nat.le_antisymm (Nat.le_trans hlen2 (Nat.succ_le_of_lt hlen)) hth2
  · rw [if_neg hth]
    refine ⟨?_, hfl, hnd2⟩
    show List.length b2 < cacheSize
    omega

theorem foldl_bufferInv (entries : List idRef) :
    ∀ st, BufferInv st → BufferInv (entries.foldl dispatchStep st) := by
  induction entries with
  | nil =>
    intro st h
    exact h
  | cons e es ih =>
    intro st h
    rw [List.foldl_cons]
    exact ih _ (dispatchStep_bufferInv h e)

/-- The `DiffCache` with its two owned index handles; the handles are
opaque here (only presence matters for the lifecycle).  The base directory
and the on-disk artifacts live outside the structure: the `os.Stat` and
`os.RemoveAll` outcomes are passed in where needed. -/
structure DiffCache where
  coords : Option Unit
  ways : Option Unit
  opened : Bool
deriving DecidableEq

/-- Go `NewDiffCache`: both index fields nil, not opened. -/
def NewDiffCache : DiffCache := ⟨none, none, false⟩

/-- Go `DiffCache.Close`: close and nil out both indices; the `opened` flag
is not touched. -/
def diffClose (c : DiffCache) : DiffCache := { c with coords := none, ways := none }

/-- Go `DiffCache.Open`: open the coords index (on failure `Close` and
return the error), then the ways index (on failure `Close` and return the
error), then set `opened`.  `okCoords` / `okWays` are the outcomes of the
two `NewRefIndex` store opens; the Bool result is true when an error is
returned. -/
def diffOpen (c : DiffCache) (okCoords okWays : Bool) : DiffCache × Bool :=
  let c1 := { c with coords := if okCoords then some () else none }
  if okCoords = false then (diffClose c1, true)
  else
    let c2 := { c1 with ways := if okWays then some () else none }
    if okWays = false then (diffClose c2, true)
    else ({ c2 with opened := true }, false)

/-- Go `DiffCache.Exists`: true when already opened in this process, or
when either on-disk store directory is present (the two `os.Stat`
outcomes are passed in). -/
def diffExists (c : DiffCache) (coordsDirPresent waysDirPresent : Bool) : Bool :=
  c.opened || coordsDirPresent || waysDirPresent

/-- Go `DiffCache.Remove`: `Close` when opened, then delete both store
directories; the `opened` flag is never cleared. -/
def diffRemove (c : DiffCache) : DiffCache :=
  if c.opened then diffClose c else c

/-- C1: for every id and any sequence of flushed ref batches (each batch
ascending, as the buffering stage produces them), the persisted record
equals the ascending sort of the multiset union of all batches:
`loadAppendMarshal` decodes the existing bytes (absent meaning no existing
refs), appends the pending refs, re-sorts ascending without deduplication
and re-encodes — a flush merges into the persisted record, never replaces
it. -/
theorem C1_merge_across_flushes (id : Int) (batches : List (List Int))
    (h : ∀ b ∈ batches, List.Sorted (· ≤ ·) b ∧ ∀ r ∈ b, isInt64 r) :
    Get (flushSeq emptyStore id batches) id = sortRefs batches.flatten := by
  have hm := flushSeq_get batches emptyStore [] id (Or.inl ⟨rfl, rfl⟩)
    (by simp) (by simp) h
  simpa using hm

/-- Witness for C1 at the spec example: flushing batch `[10]` then batch
`[3]` for id 5 yields `get 5 = [3, 10]`. -/
theorem C1_merge_witness :
    Get (flushSeq emptyStore 5 [[10], [3]]) 5 = [3, 10] := by
  have h := C1_merge_across_flushes 5 [[10], [3]] (by decide)
  rw [h]
  decide

/-- C2: decoding the encoding of any ascending (repeats allowed) sequence
of signed 64-bit integers returns the original sequence exactly. -/
theorem C2_codec_roundtrip (s : List Int) (hasc : List.Sorted (· ≤ ·) s)
    (hrange : ∀ r ∈ s, isInt64 r) :
    UnmarshalRefs (MarshalRefs s) = s :=
  UnmarshalRefs_MarshalRefs s hrange

/-- Witness for C2 on an ascending sequence with a repeat and a negative
value. -/
theorem C2_roundtrip_witness :
    UnmarshalRefs (MarshalRefs [-4, 2, 2, 300]) = [-4, 2, 2, 300] :=
  C2_codec_roundtrip [-4, 2, 2, 300] (by decide) (by decide)

/-- C3 counterexample: on the byte string `[2, 128]` — a valid varint for
the value 1 followed by a varint truncated after its continuation byte —
`UnmarshalRefs` returns the silently shorter sequence `[1]` to its caller;
the read error is only logged (the `unmarshalLogged` flag models the
`log.Println` call) and the function signature carries no error at all, so
the claim that the decode operation returns an explicit error to the
caller is false on the code. -/
theorem C3_counterexample :
    UnmarshalRefs [2, 128] = [1] ∧ unmarshalLogged [2, 128] = true := by
  have h1 : readVarint [2, 128] = .ok 1 [128] := rfl
  have hs := unmarshalLoop_step 0 h1
  have he := unmarshalLoop_errRead (int64Wrap (0 + 1)) readVarint_cont
  have hw : int64Wrap (0 + 1) = 1 := by decide
  constructor
  · unfold UnmarshalRefs
    rw [hs, he, hw]
  · unfold unmarshalLogged
    rw [hs, he]

/-- C3 amended: on input consisting of a valid encoding followed by a byte
string truncated mid-varint, `UnmarshalRefs` stops at the malformed bytes,
logs the error, and returns only the refs decoded before them — no error
value reaches the caller. -/
theorem C3_truncation_logged (s : List Int) (hr : ∀ r ∈ s, isInt64 r) :
    UnmarshalRefs (MarshalRefs s ++ [128]) = s
    ∧ unmarshalLogged (MarshalRefs s ++ [128]) = true := by
  have hm := unmarshalLoop_marshalLoop s 0 [128] hr
  rw [unmarshalLoop_errRead _ readVarint_cont] at hm
  constructor
  · unfold UnmarshalRefs MarshalRefs
    rw [hm]
    simp
  · unfold unmarshalLogged MarshalRefs
    rw [hm]

/-- Witness for the amended C3 at `s = [5]`. -/
theorem C3_truncation_witness :
    UnmarshalRefs (MarshalRefs [5] ++ [128]) = [5]
    ∧ unmarshalLogged (MarshalRefs [5] ++ [128]) = true :=
  C3_truncation_logged [5] (by decide)

/-- C4: for a fixed id and a fixed multiset of refs, every permutation of
the `add(id, ref)` calls yields, after a full flush (close), the same
ascending sequence from `get(id)`, with duplicates preserved: the
buffering stage (`insertRefs` via `addToCache`) keeps each pending list
ascending, so the persisted result is the sorted multiset. -/
theorem C4_insertion_order_independence (id : Int) (rs1 rs2 : List Int)
    (hperm : List.Perm rs1 rs2) (hr : ∀ r ∈ rs1, isInt64 r) :
    Get (runClose (rs1.map (fun r => ⟨id, r⟩))) id
      = Get (runClose (rs2.map (fun r => ⟨id, r⟩))) id
    ∧ List.Sorted (· ≤ ·) (Get (runClose (rs1.map (fun r => ⟨id, r⟩))) id)
    ∧ List.Perm (Get (runClose (rs1.map (fun r => ⟨id, r⟩))) id) rs1 := by
  have hof : ∀ rs0 : List Int, refsOf (rs0.map (fun r => (⟨id, r⟩ : idRef))) id = rs0 := by
    intro rs0
    induction rs0 with
    | nil => rfl
    | cons a l ihl =>
      rw [List.map_cons, refsOf_cons, if_pos rfl, ihl]
  have hres : ∀ rs : List Int, (∀ r ∈ rs, isInt64 r) →
      Get (runClose (rs.map (fun r => (⟨id, r⟩ : idRef)))) id = sortRefs rs := by
    intro rs hrs
    have h := runClose_get (rs.map (fun r => ⟨id, r⟩)) id (by
      intro e he
      rcases List.mem_map.mp he with ⟨r, hrm, hre⟩
      rw [← hre]
      exact hrs r hrm)
    rw [h, hof rs]
  have hr2 : ∀ r ∈ rs2, isInt64 r := fun r h => hr r (hperm.mem_iff.mpr h)
  refine ⟨?_, ?_, ?_⟩
  · rw [hres rs1 hr, hres rs2 hr2]
    exact sortRefs_congr_perm hperm
  · rw [hres rs1 hr]
    exact sortRefs_sorted rs1
  · rw [hres rs1 hr]
    exact sortRefs_perm rs1

/-- Witness for C4: adding 10 then 3, versus 3 then 10, for id 5. -/
theorem C4_witness :
    Get (runClose (List.map (fun r => (⟨5, r⟩ : idRef)) [10, 3])) 5
      = Get (runClose (List.map (fun r => (⟨5, r⟩ : idRef)) [3, 10])) 5
    ∧ List.Sorted (· ≤ ·)
        (Get (runClose (List.map (fun r => (⟨5, r⟩ : idRef)) [10, 3])) 5)
    ∧ List.Perm (Get (runClose (List.map (fun r => (⟨5, r⟩ : idRef)) [10, 3])) 5)
        [10, 3] :=
  C4_insertion_order_independence 5 [10, 3] [3, 10] (by decide) (by decide)

/-- C5: all entries accepted by `add` and followed by `close()` are
persisted and visible to `get` after close, even when the number of
buffered ids never reaches the flush threshold: the dispatcher flushes the
remainder buffer when the `add` channel closes, and `Close` waits for the
writer to drain every handed-off buffer before the store handle is
closed. -/
theorem C5_close_durability (entries : List idRef)
    (hr : ∀ e ∈ entries, isInt64 e.ref) :
    ∀ e ∈ entries, e.ref ∈ Get (runClose entries) e.id := by
  intro e he
  rw [runClose_get entries e.id hr]
  apply (sortRefs_perm _).mem_iff.mpr
  unfold refsOf
  apply List.mem_filterMap.mpr
  exact ⟨e, he, by rw [if_pos rfl]⟩

/-- Witness for C5: a single entry, far below the flush threshold, is
visible after close. -/
theorem C5_witness : (10 : Int) ∈ Get (runClose [⟨5, 10⟩]) 5 := by
  have h := C5_close_durability [⟨5, 10⟩] (by decide)
  exact h ⟨5, 10⟩ (by decide)

/-- C6 counterexample: with two handed-off buffers, where the final batch
write of the first fails and that of the second succeeds, the writer still
flushes the second buffer — id 2 becomes readable — after logging exactly
one error.  Flushing for the index does not stop at the failure, so the
claim that further flushing stops (a fatal condition rather than a log
line) is false on the code. -/
theorem C6_counterexample :
    Get (writerRun emptyStore [([(1, [5])], false), ([(2, [7])], true)]).1 2 = [7]
    ∧ (writerRun emptyStore [([(1, [5])], false), ([(2, [7])], true)]).2 = 1 := by
  have h1 : (writerRun emptyStore [([(1, [5])], false), ([(2, [7])], true)]).1
      = writeRefsStore emptyStore [(2, [7])] := rfl
  have h2 : writeRefsStore emptyStore [(2, [7])] 2 = some (MarshalRefs [7]) := rfl
  refine ⟨?_, rfl⟩
  rw [h1, Get_eq_of_some h2, UnmarshalRefs_MarshalRefs [7] (by decide)]

/-- C6 amended (what the code does): `writeRefs` returns the final batch
write failure as the result of flushing that buffer, but the `writer` loop
merely logs it and continues with the remaining buffers: a failed flush
leaves the store unchanged (the batch is atomic) and does not stop later
flushes. -/
theorem C6_writer_logs_and_continues (store : Store) (b : BufMap)
    (rest : List (BufMap × Bool)) :
    writerRun store ((b, false) :: rest)
      = ((writerRun store rest).1, (writerRun store rest).2 + 1) := by
  simp [writerRun, Nat.add_comm]

/-- C7: starting from an empty buffer, after any sequence of accepted
entries the live buffer holds fewer than `cacheSize = 65536` distinct ids
(its keys stay pairwise distinct), and every buffer handed to the flush
stage mid-run was handed off exactly upon reaching the threshold: it holds
exactly `cacheSize` distinct ids. -/
theorem C7_flush_threshold (entries : List idRef) :
    cacheSize = 65536
    ∧ (entries.foldl dispatchStep ⟨[], []⟩).buffer.length < cacheSize
    ∧ (bufKeys (entries.foldl dispatchStep ⟨[], []⟩).buffer).Nodup
    ∧ ∀ b ∈ (entries.foldl dispatchStep ⟨[], []⟩).flushed, b.length = cacheSize := by
  have h := foldl_bufferInv entries ⟨[], []⟩
    ⟨by norm_num [cacheSize], by simp, by simp [bufKeys]⟩
  exact ⟨by norm_num [cacheSize], h.1, h.2.2, h.2.1⟩

/-- C8: when opening either owned index fails, `DiffCache.Open` closes
whichever index already succeeded, returns the failure, and leaves no
usable partial state: both index fields are nil and the `opened` flag is
untouched (so a fresh cache stays unmarked). -/
theorem C8_open_failure_atomic (c : DiffCache) (okCoords okWays : Bool)
    (hfail : okCoords = false ∨ okWays = false) :
    (diffOpen c okCoords okWays).2 = true
    ∧ (diffOpen c okCoords okWays).1.coords = none
    ∧ (diffOpen c okCoords okWays).1.ways = none
    ∧ (diffOpen c okCoords okWays).1.opened = c.opened := by
  rcases hfail with h | h
  · subst h
    simp [diffOpen, diffClose]
  · subst h
    cases okCoords <;> simp [diffOpen, diffClose]

/-- Witness for C8: the coords index fails to open on a fresh cache. -/
theorem C8_witness :
    (diffOpen NewDiffCache false true).2 = true
    ∧ (diffOpen NewDiffCache false true).1.coords = none
    ∧ (diffOpen NewDiffCache false true).1.ways = none
    ∧ (diffOpen NewDiffCache false true).1.opened = NewDiffCache.opened :=
  C8_open_failure_atomic NewDiffCache false true (Or.inl rfl)

/-- C9: the clearing loop of `writeRefs` deletes every entry of the flushed
buffer before the buffer is offered to the shared recycle pool, so any
buffer obtained from the pool is empty: it holds no id (and hence no refs)
from any earlier flush cycle or other index instance. -/
theorem C9_recycled_buffers_empty (b : BufMap) (id : Int) :
    clearKeys b = [] ∧ bufFind (clearKeys b) id = none := by
  refine ⟨clearKeys_eq_nil b, ?_⟩
  rw [clearKeys_eq_nil b]
  rfl

/-- C10: a successful `Open` sets the `opened` flag, and neither `Close`
nor `Remove` ever clears it, so `Exists` returns true for the remainder of
the process lifetime — even after `Close`, and even after a successful
`Remove` has deleted both on-disk store directories (both directory
presence flags false). -/
theorem C10_exists_sticky (c : DiffCache) (hopen : c.opened = true)
    (fsCoords fsWays : Bool) :
    (diffOpen NewDiffCache true true).1.opened = true
    ∧ (diffClose c).opened = true
    ∧ (diffRemove c).opened = true
    ∧ diffExists (diffClose c) fsCoords fsWays = true
    ∧ diffExists (diffRemove c) fsCoords fsWays = true := by
  refine ⟨rfl, hopen, ?_, ?_, ?_⟩
  · unfold diffRemove diffClose
    simp [hopen]
  · unfold diffExists diffClose
    simp [hopen]
  · unfold diffExists diffRemove diffClose
    simp [hopen]

/-- Witness for C10: open a fresh cache successfully, close it, remove it;
`Exists` still reports true with both directories gone. -/
theorem C10_witness :
    (diffOpen NewDiffCache true true).1.opened = true
    ∧ (diffClose (diffOpen NewDiffCache true true).1).opened = true
    ∧ (diffRemove (diffOpen NewDiffCache true true).1).opened = true
    ∧ diffExists (diffClose (diffOpen NewDiffCache true true).1) false false = true
    ∧ diffExists (diffRemove (diffOpen NewDiffCache true true).1) false false = true :=
  C10_exists_sticky (diffOpen NewDiffCache true true).1 (by decide) false false

end GoposmCache
